import Mathlib

/-!
Verification of the transaction-untangling core (untangle.py).

The first part of this file is a shallow embedding of the source: every
definition mirrors one Python function of `untangle.py`.  Python integers are
modelled as `Int`, Python lists as `List`, tuples `(identifier, value)` as
`String × Int`, and the 4-element transaction list `[id, inputs, outputs, fee]`
as a structure with those four fields.  The `while True` loop of
`get_codewords` is modelled with an explicit fuel parameter
(`getCodewordsFuel`); `none` means the loop has not reached its `return` within
the given number of iterations.  A sufficient fuel bound is proved below, so
`get_codewords` itself is a total function agreeing with the Python loop
whenever the loop terminates.
-/

set_option maxHeartbeats 1600000

/-- An input or output entry of a transaction: `(identifier, value)`. -/
abbrev Entry := String × Int

/-- A transaction `[id, inputs, outputs, fee]` as used throughout untangle.py. -/
structure Transaction where
  txid : String
  inputs : List Entry
  outputs : List Entry
  fee : Int
deriving DecidableEq

/-- Python `max` over a list of ints, seeded with the head (Python's `max`
faults on an empty list; all call sites pass nonempty lists, where this equals
the maximum). -/
def pymax (l : List Int) : Int := l.foldl max (l.headD 0)

/-- Outcome of the inner `while startIndex >= 0` loop of `get_codewords`:
`ret` models `return codewords`, `brk cw` models `break` with the codeword
mutated to `cw`, and `fall` models the loop guard failing (which happens only
when the codeword is empty, i.e. `startIndex` starts at `-1`). -/
inductive ScanOut where
  | ret
  | brk (cw : List Int)
  | fall
deriving DecidableEq

/-- Inner loop of `get_codewords`, at Python `startIndex = s` (argument `s`).
At `s = 0` the slice `codeword[0:0]` is empty and the function returns. -/
def scanGo (k : Int) (cw : List Int) : Nat → ScanOut
  | 0 => ScanOut.ret
  | s+1 =>
    if (cw.take (s+1)).isEmpty then ScanOut.ret
    else
      let maxValue := pymax (cw.take (s+1))
      let cs := cw.getD (s+1) 0
      if maxValue > k ∨ cs > maxValue ∨ cs ≥ k then
        scanGo k (cw.set (s+1) 1) s
      else ScanOut.brk (cw.set (s+1) (cs + 1))

/-- One inner-loop run of `get_codewords`, starting at `startIndex = n - 1`.
For an empty codeword `startIndex` is `-1` and the loop guard fails at once. -/
def stepOut (k : Int) (cw : List Int) : ScanOut :=
  if (cw.length : Int) - 1 < 0 then ScanOut.fall else scanGo k cw (cw.length - 1)

/-- Outer `while True` loop of `get_codewords`, with explicit fuel.  Each
iteration appends a copy of the current codeword to the accumulator, then runs
the inner loop.  `none` means `return` was not reached within `fuel`
iterations. -/
def getCodewordsFuel (k : Int) : Nat → List Int → List (List Int) → Option (List (List Int))
  | 0, _, _ => none
  | fuel+1, cw, acc =>
    match stepOut k cw with
    | ScanOut.ret => some (acc ++ [cw])
    | ScanOut.brk cw2 => getCodewordsFuel k fuel cw2 (acc ++ [cw])
    | ScanOut.fall => getCodewordsFuel k fuel cw (acc ++ [cw])

/-- Fuel that is proved sufficient for `get_codewords n k` whenever `n ≥ 1`. -/
def fuelBound (n : Nat) (k : Int) : Nat := (max k 1).toNat ^ n

/-- `get_codewords(n, k)`: enumeration of the restricted growth strings of
length `n` bounded by `k`, starting from the all-ones codeword.  Totalization
of the fuel-based loop; `fuelBound` is proved sufficient for `n ≥ 1` below. -/
def get_codewords (n : Nat) (k : Int) : List (List Int) :=
  (getCodewordsFuel k (fuelBound n k) (List.replicate n 1) []).getD []

/-- `partition[subset - 1].append(element)`: place `x` at index `j` of the
bucket list. -/
def placeEntry (part : List (List Entry)) (j : Nat) (x : Entry) : List (List Entry) :=
  part.set j (part.getD j [] ++ [x])

/-- The element-placement loop of `get_partitions`: element `i` goes into
bucket `codeword[i] - 1`. -/
def buildPartition : List Entry → List Int → List (List Entry) → List (List Entry)
  | [], _, part => part
  | _ :: _, [], part => part
  | x :: xs, c :: cs, part => buildPartition xs cs (placeEntry part (c - 1).toNat x)

/-- `get_partitions(list, max_size)`. -/
def get_partitions (l : List Entry) (max_size : Int) : List (List (List Entry)) :=
  (get_codewords l.length max_size).map fun cw =>
    buildPartition l cw (List.replicate (pymax cw).toNat [])

/-- The size-`i` bucket of the dictionary built by `group_partitions_by_size`:
the partitions with exactly `i` subsets, in insertion order. -/
def partitionsOfSize (parts : List (List (List Entry))) (i : Nat) : List (List (List Entry)) :=
  parts.filter fun p => p.length == i

/-- Sum of the values of a subset: `sum([item[1] for item in subset])`. -/
def subsetSum (s : List Entry) : Int := (s.map fun x => x.2).sum

/-- `is_connectable(input_subset, output_subset, transaction_fee)`. -/
def is_connectable (input_subset output_subset : List Entry) (transaction_fee : Int) : Bool :=
  let input_sum := subsetSum input_subset
  let output_sum := subsetSum output_subset
  let a := output_sum + transaction_fee
  decide (a ≥ input_sum) && decide (input_sum ≥ output_sum)

/-- `itertools.permutations`, which yields the arrangements in lexicographic
order of the picked index sequences.  The fuel argument (always called with
`l.length`) makes the recursion structural. -/
def pyPermsAux : Nat → List (List Entry) → List (List (List Entry))
  | _, [] => [[]]
  | 0, _ :: _ => []
  | fuel+1, x :: xs =>
    (List.range (x :: xs).length).flatMap fun i =>
      (pyPermsAux fuel ((x :: xs).eraseIdx i)).map fun p => (x :: xs).getD i [] :: p

/-- `list(permutations(output_partition, len(output_partition)))`. -/
def pyPermutations (l : List (List Entry)) : List (List (List Entry)) := pyPermsAux l.length l

/-- An acceptable partition: `(input_partition, output_ordering)`. -/
abbrev TxPartition := List (List Entry) × List (List Entry)

/-- `get_acceptable_connections(partition_size, input_partition, output_partition,
transaction_fee)`. -/
def get_acceptable_connections (partition_size : Nat) (input_partition : List (List Entry))
    (output_partition : List (List Entry)) (transaction_fee : Int) : List TxPartition :=
  (pyPermutations output_partition).filterMap fun ord =>
    if (List.range partition_size).all
        (fun i => is_connectable (input_partition.getD i []) (ord.getD i []) transaction_fee)
    then some (input_partition, ord) else none

/-- `get_acceptable_partitions(transaction)`. -/
def get_acceptable_partitions (t : Transaction) : List TxPartition :=
  let max_partition_size := min t.inputs.length t.outputs.length
  let input_partitions := get_partitions t.inputs (max_partition_size : Int)
  let output_partitions := get_partitions t.outputs (max_partition_size : Int)
  (List.range' 2 (max_partition_size - 1)).flatMap fun i =>
    (partitionsOfSize input_partitions i).flatMap fun ip =>
      (partitionsOfSize output_partitions i).flatMap fun op =>
        get_acceptable_connections i ip op t.fee

/-- Stable insertion of an entry into a value-sorted list: the new element goes
after every element of value `≤` its own. -/
def insertByValue (x : Entry) : List Entry → List Entry
  | [] => [x]
  | y :: ys => if y.2 ≤ x.2 then y :: insertByValue x ys else x :: y :: ys

/-- `inputs.sort(key=sort_key)`: stable ascending sort by value (`sort_key`
returns `input[1]`). -/
def pySortByValue (l : List Entry) : List Entry :=
  l.foldl (fun acc x => insertByValue x acc) []

/-- The marking loop of `remove_small_inputs`: walk the (sorted) inputs,
collecting each input whose value is at most the running fee and decrementing
the fee, stopping at the first input that fails the test.  Returns
`(inputs_to_remove, final fee)`. -/
def scanSmallInputs : List Entry → Int → List Entry × Int
  | [], fee => ([], fee)
  | x :: xs, fee =>
    if x.2 ≤ fee then
      let r := scanSmallInputs xs (fee - x.2)
      (x :: r.1, r.2)
    else ([], fee)

/-- `remove_small_inputs(transaction)`.  Note that the final list comprehension
removes by membership (`not x in inputs_to_remove`), i.e. by value equality. -/
def remove_small_inputs (t : Transaction) : Transaction :=
  let inputs := pySortByValue t.inputs
  let res := scanSmallInputs inputs t.fee
  { t with inputs := inputs.filter fun x => decide (x ∉ res.1), fee := res.2 }

/-- The per-partition minimum flow of `remove_small_outputs`: smallest
`in_sum - out_sum` over the index-aligned subset pairs, seeded with pair 0. -/
def minFlow (p : TxPartition) : Int :=
  let flows := (List.range p.1.length).map fun i =>
    subsetSum (p.1.getD i []) - subsetSum (p.2.getD i [])
  match flows with
  | [] => 0
  | f :: fs => fs.foldl min f

/-- The `delta` computation of `remove_small_outputs`: largest per-partition
minimum flow over all acceptable partitions, starting from 0. -/
def computeDelta (aps : List TxPartition) : Int :=
  aps.foldl (fun delta p => if minFlow p > delta then minFlow p else delta) 0

/-- `remove_small_outputs(transaction)`.  Every output of value `≤ delta` is
marked; each marked output adds its value to the fee, and removal is again by
membership (value equality). -/
def remove_small_outputs (t : Transaction) : Transaction :=
  let delta := computeDelta (get_acceptable_partitions t)
  let outputs := pySortByValue t.outputs
  let outputs_to_remove := outputs.filter fun o => o.2 ≤ delta
  let fee := t.fee + subsetSum outputs_to_remove
  { t with outputs := outputs.filter fun x => decide (x ∉ outputs_to_remove), fee := fee }

/-- `simplify(transaction)`: the first component is the state of the (shared,
mutated-in-place) transaction object after both pruning passes; the second is
the Python return value — the function body has no `return` statement, so it
returns `None`. -/
def simplify (t : Transaction) : Transaction × Option Transaction :=
  let t1 := remove_small_inputs t
  let t2 := remove_small_outputs t1
  (t2, none)

/-- `untangle(transaction)`: `simplify` is called for its in-place effect; the
partition search then runs on the mutated transaction object. -/
def untangle (t : Transaction) : List TxPartition :=
  let t' := (simplify t).1
  get_acceptable_partitions t'

/-- The `figure6` example transaction of untangle.py (the "separable" case). -/
def figure6 : Transaction :=
  { txid := "t0"
    inputs := [("a1", 20), ("a2", 10)]
    outputs := [("b1", 19), ("b2", 7), ("b3", 3)]
    fee := 1 }

/-- The data-model invariant: input values sum to output values plus fee. -/
def feeInvariant (t : Transaction) : Prop :=
  subsetSum t.inputs = subsetSum t.outputs + t.fee

/-- A transaction whose input list holds two equal entries (same identifier and
same value); it satisfies the fee invariant. -/
def dupInputTx : Transaction :=
  { txid := "t0", inputs := [("a", 1), ("a", 1)], outputs := [("b", 1)], fee := 1 }

/-! ### Specification-side notions used to analyse the codeword enumeration -/

/-- Maximum of a list of ints, seeded with `0` (agrees with `pymax` whenever the
head is nonnegative, in particular on codewords). -/
def maxOf (l : List Int) : Int := l.foldl max 0

/-- `cw` is a restricted growth string bounded by `k`: every position holds a
value between `1` and `min (maxOf prefix + 1) k`. -/
def RGS (k : Int) (cw : List Int) : Prop :=
  ∀ i < cw.length, 1 ≤ cw.getD i 0 ∧ cw.getD i 0 ≤ min (maxOf (cw.take i) + 1) k

/-- Strict lexicographic order between integer lists, phrased through the first
differing index (adequate for lists of equal length, the only use here). -/
def lexLt (a b : List Int) : Prop :=
  ∃ q, q < b.length ∧ (∀ i < q, a.getD i 0 = b.getD i 0) ∧ a.getD q 0 < b.getD q 0

/-- Reflexive closure of `lexLt`. -/
def lexLe (a b : List Int) : Prop := lexLt a b ∨ a = b

/-- The inner-loop stopping test of `get_codewords` at position `q`, read off
the unmodified codeword: position `q` cannot be incremented. -/
abbrev IsMaxPos (k : Int) (cw : List Int) (q : Nat) : Prop :=
  pymax (cw.take q) > k ∨ cw.getD q 0 > pymax (cw.take q) ∨ cw.getD q 0 ≥ k

/-- Termination measure for the outer loop of `get_codewords`: the codeword
read as a base-`max k 1` numeral of digits `max k 1 - value`. -/
def wMeasure (k : Int) (cw : List Int) : Nat :=
  ((List.range cw.length).map fun i =>
    (max k 1 - cw.getD i 0).toNat * (max k 1).toNat ^ (cw.length - 1 - i)).sum

/-- The integers `1, 2, …, m`. -/
def valsUpTo (m : Int) : List Int := (List.range m.toNat).map fun (j : Nat) => (j : Int) + 1

/-- All admissible one-element extensions of a restricted growth string. -/
def extendRGS (k : Int) (s : List Int) : List (List Int) :=
  (valsUpTo (min (maxOf s + 1) k)).map fun v => s ++ [v]

/-- All restricted growth strings of length `n` bounded by `k`, grown position
by position, in lexicographic order. -/
def allRGS (k : Int) : Nat → List (List Int)
  | 0 => [[]]
  | n+1 => (allRGS k n).flatMap (extendRGS k)

/-- Stirling numbers of the second kind, via the standard recurrence. -/
def stirl : Nat → Nat → Nat
  | 0, 0 => 1
  | 0, _+1 => 0
  | _+1, 0 => 0
  | n+1, m+1 => (m + 1) * stirl n (m+1) + stirl n m

/-- The `n`-th Bell number: sum of the Stirling numbers of the second kind. -/
def bell (n : Nat) : Nat := ((List.range (n+1)).map (stirl n)).sum

/-- The elements of `l` whose codeword value equals `v`, in order: the contents
of bucket `v - 1` of a built partition. -/
def selectCode : List Entry → List Int → Int → List Entry
  | [], _, _ => []
  | _ :: _, [], _ => []
  | x :: xs, c :: cs, v => if c = v then x :: selectCode xs cs v else selectCode xs cs v

/-! ### Basic helper lemmas -/

theorem insertByValue_perm (x : Entry) (l : List Entry) : (insertByValue x l).Perm (x :: l) := by
  induction l with
  | nil => simp [insertByValue]
  | cons y ys ih =>
    simp only [insertByValue]
    split
    · exact (ih.cons y).trans (List.Perm.swap x y ys)
    · exact List.Perm.refl _

theorem pySortFold_perm : ∀ (l acc : List Entry),
    (l.foldl (fun acc x => insertByValue x acc) acc).Perm (acc ++ l) := by
  intro l
  induction l with
  | nil => intro acc; simp
  | cons x xs ih =>
    intro acc
    simp only [List.foldl_cons]
    refine (ih (insertByValue x acc)).trans ?_
    refine (((insertByValue_perm x acc).append_right xs).trans ?_)
    exact List.perm_middle.symm

theorem pySortByValue_perm (l : List Entry) : (pySortByValue l).Perm l := by
  simpa using pySortFold_perm l []

theorem subsetSum_append (a b : List Entry) :
    subsetSum (a ++ b) = subsetSum a + subsetSum b := by
  simp [subsetSum]

theorem subsetSum_perm {a b : List Entry} (h : a.Perm b) : subsetSum a = subsetSum b := by
  unfold subsetSum
  exact (h.map fun x => x.2).sum_eq

theorem subsetSum_filter_split (p : Entry → Bool) (l : List Entry) :
    subsetSum l = subsetSum (l.filter p) + subsetSum (l.filter fun x => !(p x)) := by
  induction l with
  | nil => simp [subsetSum]
  | cons x xs ih =>
    by_cases h : p x = true
    · simp [subsetSum, List.filter_cons, h] at ih ⊢; omega
    · simp only [Bool.not_eq_true] at h
      simp [subsetSum, List.filter_cons, h] at ih ⊢; omega

theorem scanSmallInputs_prefix : ∀ (l : List Entry) (fee : Int),
    ∃ r, l = (scanSmallInputs l fee).1 ++ r := by
  intro l
  induction l with
  | nil => intro fee; exact ⟨[], rfl⟩
  | cons x xs ih =>
    intro fee
    by_cases h : x.2 ≤ fee
    · obtain ⟨r, hr⟩ := ih (fee - x.2)
      exact ⟨r, by simp [scanSmallInputs, h]; exact hr⟩
    · exact ⟨x :: xs, by simp [scanSmallInputs, h]⟩

theorem scanSmallInputs_fee : ∀ (l : List Entry) (fee : Int),
    (scanSmallInputs l fee).2 = fee - subsetSum (scanSmallInputs l fee).1 := by
  intro l
  induction l with
  | nil => intro fee; simp [scanSmallInputs, subsetSum]
  | cons x xs ih =>
    intro fee
    by_cases h : x.2 ≤ fee
    · simp only [scanSmallInputs, if_pos h]
      rw [ih (fee - x.2)]
      simp [subsetSum]; ring
    · simp [scanSmallInputs, if_neg h, subsetSum]

theorem is_connectable_iff_aux (input_subset output_subset : List Entry)
    (transaction_fee : Int) :
    is_connectable input_subset output_subset transaction_fee = true ↔
      subsetSum output_subset ≤ subsetSum input_subset ∧
        subsetSum input_subset ≤ subsetSum output_subset + transaction_fee := by
  simp only [is_connectable, Bool.and_eq_true, decide_eq_true_eq, ge_iff_le]
  constructor
  · rintro ⟨h1, h2⟩; exact ⟨h2, h1⟩
  · rintro ⟨h1, h2⟩; exact ⟨h2, h1⟩


theorem foldl_max_ones : ∀ (m : Nat), (List.replicate m (1:Int)).foldl max 1 = 1 := by
  intro m
  induction m with
  | zero => rfl
  | succ n ih => simpa [List.replicate_succ] using ih

theorem pymax_replicate_one : ∀ (m : Nat), 1 ≤ m → pymax (List.replicate m (1:Int)) = 1 := by
  intro m hm
  cases m with
  | zero => omega
  | succ n =>
    simp only [pymax, List.replicate_succ, List.headD_cons, List.foldl_cons, max_self]
    exact foldl_max_ones n

theorem set_replicate_one : ∀ (n i : Nat),
    (List.replicate n (1:Int)).set i 1 = List.replicate n 1 := by
  intro n
  induction n with
  | zero => intro i; rfl
  | succ m ih =>
    intro i
    cases i with
    | zero => simp [List.replicate_succ]
    | succ j => simp [List.replicate_succ, ih j]

theorem scanGo_ones_ret {k : Int} (hk : k < 1) (n : Nat) :
    ∀ j, scanGo k (List.replicate n 1) j = ScanOut.ret := by
  intro j
  induction j with
  | zero => rfl
  | succ s ih =>
    simp only [scanGo]
    by_cases he : ((List.replicate n (1:Int)).take (s+1)).isEmpty
    · rw [if_pos he]
    · rw [if_neg he]
      have hne : min (s+1) n ≠ 0 := by
        intro h0
        rw [List.take_replicate, h0] at he
        simp at he
      have h1 : pymax ((List.replicate n (1:Int)).take (s+1)) = 1 := by
        rw [List.take_replicate]
        exact pymax_replicate_one _ (by omega)
      rw [if_pos (Or.inl (by omega : pymax ((List.replicate n (1:Int)).take (s+1)) > k))]
      rw [set_replicate_one]
      exact ih

theorem getCodewordsFuel_nil_eq_none (k : Int) : ∀ (fuel : Nat) (acc : List (List Int)),
    getCodewordsFuel k fuel [] acc = none := by
  intro fuel
  induction fuel with
  | zero => intro acc; rfl
  | succ m ih =>
    intro acc
    have hstep : stepOut k ([] : List Int) = ScanOut.fall := rfl
    simp only [getCodewordsFuel, hstep]
    exact ih _

theorem pyPermsAux_mem_length : ∀ (fuel : Nat) (l p : List (List Entry)),
    p ∈ pyPermsAux fuel l → p.length = l.length := by
  intro fuel
  induction fuel with
  | zero =>
    intro l p hp
    cases l with
    | nil => simp [pyPermsAux] at hp; simp [hp]
    | cons x xs => simp [pyPermsAux] at hp
  | succ n ih =>
    intro l p hp
    cases l with
    | nil => simp [pyPermsAux] at hp; simp [hp]
    | cons x xs =>
      simp only [pyPermsAux, List.mem_flatMap, List.mem_map, List.mem_range] at hp
      obtain ⟨i, hi, q, hq, rfl⟩ := hp
      have hlen := ih _ _ hq
      have herase : ((x :: xs).eraseIdx i).length = (x :: xs).length - 1 :=
        List.length_eraseIdx_of_lt hi
      simp only [List.length_cons] at herase ⊢
      omega

theorem mem_get_acceptable_partitions {t : Transaction} {p : TxPartition}
    (hp : p ∈ get_acceptable_partitions t) :
    ∀ j < p.1.length, is_connectable (p.1.getD j []) (p.2.getD j []) t.fee = true := by
  simp only [get_acceptable_partitions, List.mem_flatMap] at hp
  obtain ⟨i, _, ip, hip, op, _, hp⟩ := hp
  simp only [get_acceptable_connections, List.mem_filterMap] at hp
  obtain ⟨ord, _, heq⟩ := hp
  simp only [partitionsOfSize, List.mem_filter, beq_iff_eq] at hip
  split at heq
  case isTrue hall =>
    rw [Option.some_inj] at heq
    subst heq
    intro j hj
    rw [List.all_eq_true] at hall
    exact hall j (List.mem_range.mpr (by simpa [hip.2] using hj))
  case isFalse => exact absurd heq (by simp)

/-! ### Claim theorems -/

/-- Claim C1, counterexample: `simplify` has no `return` statement, so its
Python return value on the figure-6 transaction is `None`, not the reduced
transaction. -/
theorem simplify_return_value_is_none : (simplify figure6).2 = none := rfl

/-- Claim C1, amended: `simplify` applies `remove_small_inputs` and then
`remove_small_outputs`, in that order, leaving the shared transaction object in
the fully reduced state — which `untangle` then consumes — but it returns
`None` rather than the reduced transaction. -/
theorem simplify_applies_both_passes_in_order (t : Transaction) :
    simplify t = (remove_small_outputs (remove_small_inputs t), none) ∧
      untangle t = get_acceptable_partitions (remove_small_outputs (remove_small_inputs t)) :=
  ⟨rfl, rfl⟩

/-- Claim C3: `is_connectable` returns true iff
`out_sum ≤ in_sum ≤ out_sum + fee`. -/
theorem is_connectable_boundary (input_subset output_subset : List Entry) (F : Int) :
    is_connectable input_subset output_subset F = true ↔
      subsetSum output_subset ≤ subsetSum input_subset ∧
        subsetSum input_subset ≤ subsetSum output_subset + F :=
  is_connectable_iff_aux input_subset output_subset F

/-- Claim C4: every index-aligned pair of an acceptable partition satisfies
`0 ≤ in_sum - out_sum ≤ fee`. -/
theorem acceptable_partition_pair_bounds (t : Transaction) (p : TxPartition)
    (hp : p ∈ get_acceptable_partitions t) :
    ∀ j < p.1.length,
      0 ≤ subsetSum (p.1.getD j []) - subsetSum (p.2.getD j []) ∧
        subsetSum (p.1.getD j []) - subsetSum (p.2.getD j []) ≤ t.fee := by
  intro j hj
  have h := mem_get_acceptable_partitions hp j hj
  rw [is_connectable_iff_aux] at h
  omega

/-- Claim C4 witness: a concrete acceptable partition of the figure-6
transaction and its first aligned pair. -/
theorem acceptable_partition_pair_bounds_witness :
    (([[("a1",20)],[("a2",10)]], [[("b1",19)],[("b2",7),("b3",3)]]) : TxPartition)
        ∈ get_acceptable_partitions figure6 ∧
      (0 ≤ subsetSum [(("a1":String), (20:Int))] - subsetSum [(("b1":String), (19:Int))] ∧
        subsetSum [(("a1":String), (20:Int))] - subsetSum [(("b1":String), (19:Int))]
          ≤ figure6.fee) :=
  ⟨by decide,
    acceptable_partition_pair_bounds figure6
      (([[("a1",20)],[("a2",10)]], [[("b1",19)],[("b2",7),("b3",3)]]) : TxPartition)
      (by decide) 0 (by decide)⟩

/-- Claim C5, counterexample: called with `k_max = 0 < 1` on a 2-element
sequence, the codeword loop reaches its normal `return` after one iteration
and yields the all-ones codeword — no InvalidInput failure exists anywhere in
the code. -/
theorem get_codewords_k_lt_one_returns_normally :
    getCodewordsFuel 0 3 [1, 1] [] = some [[1, 1]] := rfl

/-- Claim C5, amended: the partition generator performs no input validation.
For `k_max < 1` and a nonempty sequence, `get_codewords` returns normally with
the single all-ones codeword; for an empty element sequence the `while True`
loop never reaches its `return`, whatever the number of iterations. -/
theorem get_codewords_no_input_validation :
    (∀ (n : Nat) (k : Int), 1 ≤ n → k < 1 → get_codewords n k = [List.replicate n 1]) ∧
      ∀ (k : Int) (fuel : Nat) (acc : List (List Int)),
        getCodewordsFuel k fuel [] acc = none := by
  constructor
  · intro n k hn hk
    have hb : fuelBound n k = 1 := by
      have : max k 1 = 1 := max_eq_right (by omega)
      simp [fuelBound, this]
    have hstep : stepOut k (List.replicate n 1) = ScanOut.ret := by
      have hlen : ¬ ((List.replicate n (1:Int)).length : Int) - 1 < 0 := by
        simp only [List.length_replicate]
        omega
      simp only [stepOut, if_neg hlen]
      exact scanGo_ones_ret hk n _
    simp only [get_codewords, hb, getCodewordsFuel, hstep]
    rfl
  · exact fun k => getCodewordsFuel_nil_eq_none k

/-- Claim C5 witness: the amended statement at `n = 2, k = 0` and at the empty
sequence with fuel 5. -/
theorem get_codewords_no_input_validation_witness :
    get_codewords 2 0 = [List.replicate 2 1] ∧
      getCodewordsFuel 0 5 [] [[1]] = none :=
  ⟨get_codewords_no_input_validation.1 2 0 (by decide) (by decide),
    get_codewords_no_input_validation.2 0 5 [[1]]⟩

/-- Claim C8: untangling the figure-6 transaction yields an acceptable
partition that groups input `a1` with output `b1` and input `a2` with outputs
`b2, b3`. -/
theorem untangle_figure6_separable :
    ∃ p ∈ untangle figure6, ∃ i < p.1.length, ∃ j < p.1.length,
      p.1.getD i [] = [("a1", 20)] ∧ p.2.getD i [] = [("b1", 19)] ∧
        p.1.getD j [] = [("a2", 10)] ∧ (p.2.getD j []).Perm [("b2", 7), ("b3", 3)] := by
  refine ⟨([[("a2",10)],[("a1",20)]], [[("b3",3),("b2",7)],[("b1",19)]]), by decide,
    1, by decide, 0, by decide, by decide, by decide, by decide, by decide⟩

/-- Claim C10: the pruning passes delete entries by value equality, not by
position.  Any entry equal to a marked one disappears entirely from the
resulting list, while only the marked copies' values are accounted into the
fee: `remove_small_inputs` subtracts exactly the sum of the marked list (which
can mark a single copy of a duplicated entry), and `remove_small_outputs` adds
exactly the sum of its marked list. -/
theorem dust_removal_by_value_equality :
    (∀ (t : Transaction) (x : Entry),
        x ∈ (scanSmallInputs (pySortByValue t.inputs) t.fee).1 →
          x ∉ (remove_small_inputs t).inputs ∧
            (remove_small_inputs t).fee =
              t.fee - subsetSum (scanSmallInputs (pySortByValue t.inputs) t.fee).1) ∧
      ∀ (t : Transaction) (x : Entry),
        x ∈ (pySortByValue t.outputs).filter
            (fun o => o.2 ≤ computeDelta (get_acceptable_partitions t)) →
          x ∉ (remove_small_outputs t).outputs ∧
            (remove_small_outputs t).fee = t.fee + subsetSum
              ((pySortByValue t.outputs).filter
                (fun o => o.2 ≤ computeDelta (get_acceptable_partitions t))) := by
  constructor
  · intro t x hx
    constructor
    · intro hmem
      simp only [remove_small_inputs, List.mem_filter, decide_eq_true_eq] at hmem
      exact hmem.2 hx
    · simp only [remove_small_inputs]
      exact scanSmallInputs_fee _ _
  · intro t x hx
    constructor
    · intro hmem
      simp only [remove_small_outputs, List.mem_filter, decide_eq_true_eq] at hmem
      simp only [List.mem_filter, decide_eq_true_eq] at hx
      exact hmem.2 hx
    · rfl

/-- Claim C10 witness: `dupInputTx` has two equal inputs of value 1 and fee 1;
the scan marks a single copy, yet both copies vanish from the result while the
fee drops by only the single marked value. -/
theorem dust_removal_by_value_equality_witness :
    ("a", (1:Int)) ∈ (scanSmallInputs (pySortByValue dupInputTx.inputs) dupInputTx.fee).1 ∧
      ("a", (1:Int)) ∉ (remove_small_inputs dupInputTx).inputs ∧
        (remove_small_inputs dupInputTx).inputs = [] ∧
          (remove_small_inputs dupInputTx).fee = 0 :=
  ⟨by decide,
    (dust_removal_by_value_equality.1 dupInputTx ("a", 1) (by decide)).1,
    by decide, by decide⟩

/-- Claim C2, counterexample: `dupInputTx` satisfies the fee invariant
(1 + 1 = 1 + 1), but after `remove_small_inputs` both equal copies are removed
while the fee is reduced by only one of them, breaking the invariant. -/
theorem feeInvariant_broken_on_duplicate_inputs :
    feeInvariant dupInputTx ∧ ¬ feeInvariant (remove_small_inputs dupInputTx) := by
  simp only [feeInvariant]
  exact ⟨by decide, by decide⟩

theorem filter_not_mem_marked (l : List Entry) (fee : Int) (hnd : l.Nodup) :
    subsetSum (l.filter fun x => decide (x ∉ (scanSmallInputs l fee).1))
      = subsetSum l - subsetSum (scanSmallInputs l fee).1 := by
  set m := (scanSmallInputs l fee).1 with hm
  obtain ⟨r, hr⟩ := scanSmallInputs_prefix l fee
  rw [← hm] at hr
  rw [hr] at hnd ⊢
  have hdisj : m.Disjoint r := List.disjoint_of_nodup_append hnd
  rw [List.filter_append]
  have h1 : (m.filter fun x => decide (x ∉ m)) = [] := by
    rw [List.filter_eq_nil_iff]
    intro a ha
    simp [ha]
  have h2 : (r.filter fun x => decide (x ∉ m)) = r := by
    rw [List.filter_eq_self]
    intro a ha
    simpa using fun hmem => hdisj hmem ha
  rw [h1, h2, List.nil_append, subsetSum_append]
  ring

theorem filter_le_delta_sum (l : List Entry) (δ : Int) :
    subsetSum (l.filter fun x => decide (x ∉ l.filter fun o => decide (o.2 ≤ δ)))
      = subsetSum l - subsetSum (l.filter fun o => decide (o.2 ≤ δ)) := by
  have hcongr : (l.filter fun x => decide (x ∉ l.filter fun o => decide (o.2 ≤ δ)))
      = l.filter fun x => !(decide (x.2 ≤ δ)) := by
    apply List.filter_congr
    intro x hx
    by_cases h : x.2 ≤ δ
    · have : x ∈ l.filter fun o => decide (o.2 ≤ δ) := List.mem_filter.mpr ⟨hx, by simp [h]⟩
      simp [this, h]
    · have : x ∉ l.filter fun o => decide (o.2 ≤ δ) := by
        intro hmem
        exact h (by simpa using (List.mem_filter.mp hmem).2)
      simp [this, h]
  rw [hcongr]
  have := subsetSum_filter_split (fun o => decide (o.2 ≤ δ)) l
  omega

/-- Claim C2, amended: both pruning passes preserve the invariant
`sum(inputs) = sum(outputs) + fee` for every transaction on which the code is
defined — with the proviso forced by the value-equality deletion of
`remove_small_inputs` that the input list contain no duplicate entries
(`remove_small_outputs` needs no such proviso, since it marks every copy of a
dust output).  Nonempty input and output lists are assumed for the
`remove_small_outputs` step, whose partition enumeration diverges on empty
lists. -/
theorem feeInvariant_preserved :
    (∀ t : Transaction, t.inputs.Nodup → feeInvariant t →
        feeInvariant (remove_small_inputs t)) ∧
      ∀ t : Transaction, t.inputs ≠ [] → t.outputs ≠ [] → feeInvariant t →
        feeInvariant (remove_small_outputs t) := by
  constructor
  · intro t hnd hinv
    have hperm := pySortByValue_perm t.inputs
    have hnds : (pySortByValue t.inputs).Nodup := hperm.nodup_iff.mpr hnd
    have hsum : subsetSum (pySortByValue t.inputs) = subsetSum t.inputs := subsetSum_perm hperm
    simp only [feeInvariant, remove_small_inputs] at hinv ⊢
    rw [filter_not_mem_marked _ _ hnds, scanSmallInputs_fee]
    omega
  · intro t _ _ hinv
    have hsum : subsetSum (pySortByValue t.outputs) = subsetSum t.outputs :=
      subsetSum_perm (pySortByValue_perm t.outputs)
    simp only [feeInvariant, remove_small_outputs] at hinv ⊢
    rw [filter_le_delta_sum]
    omega

/-- Claim C2 witness: the amended preservation statement applied to the
figure-6 transaction, which has duplicate-free inputs and nonempty sides. -/
theorem feeInvariant_preserved_witness :
    (figure6.inputs.Nodup ∧ feeInvariant figure6) ∧
      feeInvariant (remove_small_inputs figure6) ∧
        feeInvariant (remove_small_outputs figure6) :=
  ⟨⟨by decide, by simp only [feeInvariant]; decide⟩,
    feeInvariant_preserved.1 figure6 (by decide) (by simp only [feeInvariant]; decide),
    feeInvariant_preserved.2 figure6 (by decide) (by decide)
      (by simp only [feeInvariant]; decide)⟩

/-! ### Index and maximum helper lemmas -/

theorem getD_set_self {l : List Int} {i : Nat} (h : i < l.length) (v : Int) :
    (l.set i v).getD i 0 = v := by
  rw [List.getD_eq_getElem _ _ (by simpa using h), List.getElem_set, if_pos rfl]

theorem getD_set_ne {l : List Int} {i j : Nat} (h : i ≠ j) (v : Int) :
    (l.set i v).getD j 0 = l.getD j 0 := by
  rw [List.getD_eq_getElem?_getD, List.getD_eq_getElem?_getD, List.getElem?_set_ne h]

theorem take_set_of_le {l : List Int} {i j : Nat} (h : j ≤ i) (v : Int) :
    (l.set i v).take j = l.take j := by
  apply List.ext_getElem
  · simp
  · intro m h1 h2
    rw [List.getElem_take, List.getElem_take, List.getElem_set,
      if_neg (by simp at h1; omega)]

theorem drop_set_of_lt {l : List Int} {i j : Nat} (h : i < j) (v : Int) :
    (l.set i v).drop j = l.drop j := by
  apply List.ext_getElem
  · simp
  · intro m h1 h2
    rw [List.getElem_drop, List.getElem_drop, List.getElem_set, if_neg (by omega)]

theorem getD_eq_of_drop_eq {a b : List Int} {j : Nat} (h : a.drop j = b.drop j) :
    a.getD j 0 = b.getD j 0 := by
  rw [List.getD_eq_getElem?_getD, List.getD_eq_getElem?_getD]
  have ha : (a.drop j)[0]? = (b.drop j)[0]? := by rw [h]
  simp only [List.getElem?_drop, Nat.add_zero] at ha
  rw [ha]

theorem foldl_max_le {b : Int} : ∀ (l : List Int) (a : Int), a ≤ b → (∀ x ∈ l, x ≤ b) →
    l.foldl max a ≤ b := by
  intro l
  induction l with
  | nil => intro a ha _; simpa using ha
  | cons x xs ih =>
    intro a ha hx
    simp only [List.foldl_cons]
    exact ih _ (max_le ha (hx x (by simp))) fun y hy => hx y (by simp [hy])

theorem le_foldl_max : ∀ (l : List Int) (a b : Int), b ≤ a ∨ b ∈ l → b ≤ l.foldl max a := by
  intro l
  induction l with
  | nil =>
    intro a b h
    rcases h with h | h
    · simpa using h
    · simp at h
  | cons x xs ih =>
    intro a b h
    simp only [List.foldl_cons]
    rcases h with h | h
    · exact ih _ _ (Or.inl (le_trans h (le_max_left _ _)))
    · rcases List.mem_cons.mp h with rfl | h
      · exact ih _ _ (Or.inl (le_max_right _ _))
      · exact ih _ _ (Or.inr h)

theorem maxOf_nonneg (l : List Int) : 0 ≤ maxOf l := le_foldl_max l 0 0 (Or.inl le_rfl)

theorem le_maxOf_of_mem {l : List Int} {x : Int} (h : x ∈ l) : x ≤ maxOf l :=
  le_foldl_max l 0 x (Or.inr h)

theorem maxOf_le {l : List Int} {b : Int} (hb : 0 ≤ b) (h : ∀ x ∈ l, x ≤ b) :
    maxOf l ≤ b := foldl_max_le l 0 hb h

theorem pymax_eq_maxOf {l : List Int} (h : 0 ≤ l.headD 0) : pymax l = maxOf l := by
  cases l with
  | nil => rfl
  | cons x xs =>
    simp only [pymax, maxOf, List.headD_cons, List.foldl_cons, max_self]
    rw [show (0 : Int) ⊔ x = x from max_eq_right (by simpa using h)]

theorem maxOf_append_singleton (s : List Int) (v : Int) :
    maxOf (s ++ [v]) = max (maxOf s) v := by
  simp [maxOf, List.foldl_append]

theorem IsMaxPos_set_high {k : Int} {cw : List Int} {s q : Nat} (h : q ≤ s) (v : Int) :
    IsMaxPos k (cw.set (s+1) v) q ↔ IsMaxPos k cw q := by
  unfold IsMaxPos
  rw [take_set_of_le (by omega), getD_set_ne (by omega)]

theorem scanGo_succ_of_nonempty {k : Int} {cw : List Int} {u : Nat} (h : cw ≠ []) :
    scanGo k cw (u+1) = if IsMaxPos k cw (u+1) then scanGo k (cw.set (u+1) 1) u
      else ScanOut.brk (cw.set (u+1) (cw.getD (u+1) 0 + 1)) := by
  have hemp : ((cw.take (u+1)).isEmpty) = false := by
    simp [List.isEmpty_iff, List.take_eq_nil_iff, h]
  simp only [scanGo, hemp, Bool.false_eq_true, if_false, IsMaxPos]

theorem scanGo_ret_spec (k : Int) : ∀ (s : Nat) (cw : List Int), cw ≠ [] →
    scanGo k cw s = ScanOut.ret → ∀ q, 1 ≤ q → q ≤ s → IsMaxPos k cw q := by
  intro s
  induction s with
  | zero => intro cw _ _ q h1 h2; omega
  | succ u ih =>
    intro cw hne hret q h1 h2
    rw [scanGo_succ_of_nonempty hne] at hret
    by_cases hC : IsMaxPos k cw (u+1)
    · rw [if_pos hC] at hret
      rcases Nat.lt_or_ge q (u+1) with hq | hq
      · have hne2 : cw.set (u+1) 1 ≠ [] := by
          intro hnil
          exact hne (by simpa using congrArg List.length hnil)
        have hcq := ih (cw.set (u+1) 1) hne2 hret q h1 (by omega)
        exact (IsMaxPos_set_high (by omega) 1).mp hcq
      · have : q = u + 1 := by omega
        subst this
        exact hC
    · rw [if_neg hC] at hret
      exact absurd hret (by simp)

theorem scanGo_brk_spec (k : Int) : ∀ (s : Nat) (cw cw' : List Int), cw ≠ [] →
    s < cw.length → scanGo k cw s = ScanOut.brk cw' →
    ∃ p, 1 ≤ p ∧ p ≤ s ∧
      cw'.length = cw.length ∧
      (∀ i, i < p → cw'.getD i 0 = cw.getD i 0) ∧
      cw'.getD p 0 = cw.getD p 0 + 1 ∧
      (∀ i, p < i → i ≤ s → cw'.getD i 0 = 1) ∧
      (∀ i, s < i → cw'.getD i 0 = cw.getD i 0) ∧
      ¬ IsMaxPos k cw p ∧
      (∀ q, p < q → q ≤ s → IsMaxPos k cw q) := by
  intro s
  induction s with
  | zero => intro cw cw' _ _ h; simp [scanGo] at h
  | succ u ih =>
    intro cw cw' hne hlen hbrk
    rw [scanGo_succ_of_nonempty hne] at hbrk
    by_cases hC : IsMaxPos k cw (u+1)
    · rw [if_pos hC] at hbrk
      have hne2 : cw.set (u+1) 1 ≠ [] := by
        intro hnil
        exact hne (by simpa using congrArg List.length hnil)
      have hlen2 : u < (cw.set (u+1) 1).length := by simp only [List.length_set]; omega
      obtain ⟨p, hp1, hpu, hlen', hlow, hatp, hmid, hhigh, hnmax, hmax⟩ :=
        ih _ _ hne2 hlen2 hbrk
      refine ⟨p, hp1, by omega, ?_, ?_, ?_, ?_, ?_, ?_, ?_⟩
      · rw [hlen']; simp
      · intro i hip
        rw [hlow i hip, getD_set_ne (by omega)]
      · rw [hatp, getD_set_ne (by omega)]
      · intro i hpi hiu
        rcases Nat.lt_or_ge i (u+1) with hi | hi
        · exact hmid i hpi (by omega)
        · have hieq : i = u+1 := by omega
          subst hieq
          rw [hhigh (u+1) (by omega)]
          exact getD_set_self (by omega) 1
      · intro i hi
        rw [hhigh i (by omega), getD_set_ne (by omega)]
      · exact fun hmp => hnmax ((IsMaxPos_set_high (by omega) 1).mpr hmp)
      · intro q hpq hqu
        rcases Nat.lt_or_ge q (u+1) with hq | hq
        · exact (IsMaxPos_set_high (by omega) 1).mp (hmax q hpq (by omega))
        · have hqeq : q = u+1 := by omega
          subst hqeq; exact hC
    · rw [if_neg hC] at hbrk
      have hcw' : cw' = cw.set (u+1) (cw.getD (u+1) 0 + 1) := by
        injection hbrk with h; exact h.symm
      subst hcw'
      refine ⟨u+1, by omega, le_rfl, by simp, ?_, getD_set_self (by omega) _, ?_, ?_, hC, ?_⟩
      · intro i hip; exact getD_set_ne (by omega) _
      · intro i h1 h2; omega
      · intro i hi; exact getD_set_ne (by omega) _
      · intro q h1 h2; omega

/-! ### Termination of the codeword enumeration -/

theorem list_sum_range (f : Nat → Nat) (n : Nat) :
    ((List.range n).map f).sum = ∑ i ∈ Finset.range n, f i := by
  induction n with
  | zero => simp
  | succ m ih =>
    rw [List.range_succ, List.map_append, List.sum_append, Finset.sum_range_succ, ih]
    simp

theorem geom_sum_nat (a : Nat) (ha : 1 ≤ a) : ∀ (m : Nat),
    (∑ j ∈ Finset.range m, (a - 1) * a ^ j) + 1 = a ^ m := by
  intro m
  induction m with
  | zero => simp
  | succ q ih =>
    rw [Finset.sum_range_succ]
    have hpow : a ^ (q+1) = a * a ^ q := by ring
    have hmul : (a - 1) * a ^ q = a * a ^ q - a ^ q := by
      rw [Nat.sub_mul, Nat.one_mul]
    have hle : a ^ q ≤ a * a ^ q := Nat.le_mul_of_pos_left _ (by omega)
    omega

theorem wMeasure_step (k : Int) (cw cw' : List Int) (hne : cw ≠ [])
    (hb : ∀ i < cw.length, 1 ≤ cw.getD i 0 ∧ cw.getD i 0 ≤ max k 1)
    (hbrk : scanGo k cw (cw.length - 1) = ScanOut.brk cw') :
    wMeasure k cw' < wMeasure k cw ∧ cw'.length = cw.length ∧
      ∀ i < cw'.length, 1 ≤ cw'.getD i 0 ∧ cw'.getD i 0 ≤ max k 1 := by
  have hn1 : 1 ≤ cw.length := by
    cases cw
    · exact absurd rfl hne
    · simp
  obtain ⟨p, hp1, hps, hlen, hlow, hatp, hmid, hhigh, hnmax, _⟩ :=
    scanGo_brk_spec k (cw.length - 1) cw cw' hne (by omega) hbrk
  have hK1 : (1:Int) ≤ max k 1 := le_max_right _ _
  have hvp : cw.getD p 0 < k := by
    unfold IsMaxPos at hnmax
    push_neg at hnmax
    exact hnmax.2.2
  have hvpK : cw.getD p 0 < max k 1 := lt_of_lt_of_le hvp (le_max_left _ _)
  have hvp1 : 1 ≤ cw.getD p 0 := (hb p (by omega)).1
  have hb' : ∀ i < cw'.length, 1 ≤ cw'.getD i 0 ∧ cw'.getD i 0 ≤ max k 1 := by
    intro i hi
    rw [hlen] at hi
    rcases Nat.lt_trichotomy i p with h | h | h
    · rw [hlow i h]; exact hb i hi
    · subst h
      rw [hatp]
      constructor
      · omega
      · omega
    · rw [hmid i h (by omega)]
      exact ⟨le_rfl, hK1⟩
  refine ⟨?_, hlen, hb'⟩
  have hws : ∀ (l : List Int), wMeasure k l =
      ∑ i ∈ Finset.range l.length,
        (max k 1 - l.getD i 0).toNat * (max k 1).toNat ^ (l.length - 1 - i) := by
    intro l
    rw [wMeasure, list_sum_range]
  rw [hws, hws, hlen]
  have hsplit : ∀ (G : Nat → Nat),
      ∑ i ∈ Finset.range cw.length, G i =
        (∑ i ∈ Finset.Ico 0 p, G i) + G p + ∑ i ∈ Finset.Ico (p+1) cw.length, G i := by
    intro G
    rw [Finset.range_eq_Ico,
      ← Finset.sum_Ico_consecutive G (Nat.zero_le (p+1)) (by omega : p+1 ≤ cw.length),
      ← Finset.sum_Ico_consecutive G (Nat.zero_le p) (by omega : p ≤ p+1),
      Finset.sum_Ico_succ_top (le_refl p), Finset.Ico_self, Finset.sum_empty, Nat.zero_add]
  rw [hsplit, hsplit]
  have hA : (∑ i ∈ Finset.Ico 0 p,
        (max k 1 - cw'.getD i 0).toNat * (max k 1).toNat ^ (cw.length - 1 - i)) =
      ∑ i ∈ Finset.Ico 0 p,
        (max k 1 - cw.getD i 0).toNat * (max k 1).toNat ^ (cw.length - 1 - i) := by
    refine Finset.sum_congr rfl fun i hi => ?_
    rw [hlow i (by simpa using (Finset.mem_Ico.mp hi).2)]
  have hC' : (∑ i ∈ Finset.Ico (p+1) cw.length,
        (max k 1 - cw'.getD i 0).toNat * (max k 1).toNat ^ (cw.length - 1 - i)) =
      ∑ i ∈ Finset.Ico (p+1) cw.length,
        ((max k 1).toNat - 1) * (max k 1).toNat ^ (cw.length - 1 - i) := by
    refine Finset.sum_congr rfl fun i hi => ?_
    obtain ⟨hi1, hi2⟩ := Finset.mem_Ico.mp hi
    rw [hmid i hi1 (by omega)]
    congr 1
    omega
  have htail : (∑ i ∈ Finset.Ico (p+1) cw.length,
        ((max k 1).toNat - 1) * (max k 1).toNat ^ (cw.length - 1 - i)) + 1 =
      (max k 1).toNat ^ (cw.length - 1 - p) := by
    rw [Finset.sum_Ico_eq_sum_range]
    have hre : ∀ j ∈ Finset.range (cw.length - (p+1)),
        ((max k 1).toNat - 1) * (max k 1).toNat ^ (cw.length - 1 - (p + 1 + j)) =
          ((max k 1).toNat - 1) * (max k 1).toNat ^ ((cw.length - (p+1)) - 1 - j) := by
      intro j hj
      congr 2
      omega
    rw [Finset.sum_congr rfl hre,
      Finset.sum_range_reflect (fun j => ((max k 1).toNat - 1) * (max k 1).toNat ^ j)]
    rw [geom_sum_nat _ (by omega)]
    congr 1
    omega
  have hatp' : (max k 1 - cw'.getD p 0).toNat * (max k 1).toNat ^ (cw.length - 1 - p) =
      ((max k 1 - cw.getD p 0).toNat - 1) * (max k 1).toNat ^ (cw.length - 1 - p) := by
    rw [hatp]
    congr 1
    omega
  rw [hA, hC', hatp']
  have hd1 : 1 ≤ (max k 1 - cw.getD p 0).toNat := by omega
  have hw1 : 1 ≤ (max k 1).toNat ^ (cw.length - 1 - p) :=
    Nat.pos_pow_of_pos _ (by omega)
  have hsub : ((max k 1 - cw.getD p 0).toNat - 1) * (max k 1).toNat ^ (cw.length - 1 - p) =
      (max k 1 - cw.getD p 0).toNat * (max k 1).toNat ^ (cw.length - 1 - p) -
        (max k 1).toNat ^ (cw.length - 1 - p) := by
    rw [Nat.sub_mul, Nat.one_mul]
  have hge : (max k 1).toNat ^ (cw.length - 1 - p) ≤
      (max k 1 - cw.getD p 0).toNat * (max k 1).toNat ^ (cw.length - 1 - p) :=
    Nat.le_mul_of_pos_left _ (by omega)
  omega

theorem scanGo_ne_fall (k : Int) : ∀ (s : Nat) (cw : List Int),
    scanGo k cw s ≠ ScanOut.fall := by
  intro s
  induction s with
  | zero => intro cw h; simp [scanGo] at h
  | succ u ih =>
    intro cw h
    simp only [scanGo] at h
    split at h
    · simp at h
    · split at h
      · exact ih _ h
      · simp at h

theorem wMeasure_replicate_one (k : Int) (n : Nat) :
    wMeasure k (List.replicate n 1) + 1 = (max k 1).toNat ^ n := by
  rw [wMeasure, list_sum_range]
  simp only [List.length_replicate]
  have hcongr : ∀ i ∈ Finset.range n,
      (max k 1 - (List.replicate n (1:Int)).getD i 0).toNat * (max k 1).toNat ^ (n - 1 - i) =
        ((max k 1).toNat - 1) * (max k 1).toNat ^ (n - 1 - i) := by
    intro i hi
    rw [List.getD_eq_getElem _ _ (by simpa using Finset.mem_range.mp hi),
      List.getElem_replicate]
    congr 1
    have := le_max_right k 1
    omega
  rw [Finset.sum_congr rfl hcongr,
    Finset.sum_range_reflect (fun j => ((max k 1).toNat - 1) * (max k 1).toNat ^ j)]
  exact geom_sum_nat _ (by have := le_max_right k 1; omega) n

theorem getCodewordsFuel_isSome (k : Int) : ∀ (fuel : Nat) (cw : List Int)
    (acc : List (List Int)), cw ≠ [] →
    (∀ i < cw.length, 1 ≤ cw.getD i 0 ∧ cw.getD i 0 ≤ max k 1) →
    wMeasure k cw < fuel → (getCodewordsFuel k fuel cw acc).isSome = true := by
  intro fuel
  induction fuel with
  | zero => intro cw acc _ _ h; omega
  | succ m ih =>
    intro cw acc hne hb hlt
    have hlenpos : 0 < cw.length := List.length_pos.mpr hne
    have hstep : stepOut k cw = scanGo k cw (cw.length - 1) := by
      rw [stepOut, if_neg (by omega)]
    rw [getCodewordsFuel, hstep]
    match hm : scanGo k cw (cw.length - 1) with
    | ScanOut.ret => simp
    | ScanOut.brk cw2 =>
      obtain ⟨hlt2, hlen2, hb2⟩ := wMeasure_step k cw cw2 hne hb hm
      refine ih cw2 (acc ++ [cw]) ?_ hb2 (by omega)
      intro h0
      rw [h0] at hlen2
      simp at hlen2
      omega
    | ScanOut.fall => exact absurd hm (scanGo_ne_fall k _ cw)

theorem getCodewordsFuel_mono (k : Int) : ∀ (fuel fuel' : Nat) (cw : List Int)
    (acc out : List (List Int)), getCodewordsFuel k fuel cw acc = some out →
    fuel ≤ fuel' → getCodewordsFuel k fuel' cw acc = some out := by
  intro fuel
  induction fuel with
  | zero => intro fuel' cw acc out h; simp [getCodewordsFuel] at h
  | succ m ih =>
    intro fuel' cw acc out h hle
    obtain ⟨m', rfl⟩ : ∃ m', fuel' = m' + 1 := ⟨fuel' - 1, by omega⟩
    rw [getCodewordsFuel] at h ⊢
    match hst : stepOut k cw with
    | ScanOut.ret => rw [hst] at h; exact h
    | ScanOut.brk cw2 => rw [hst] at h; exact ih _ _ _ _ h (by omega)
    | ScanOut.fall => rw [hst] at h; exact ih _ _ _ _ h (by omega)

theorem get_codewords_reaches_return (n : Nat) (k : Int) (hn : 1 ≤ n) :
    ∀ fuel, fuelBound n k ≤ fuel →
      getCodewordsFuel k fuel (List.replicate n 1) [] = some (get_codewords n k) := by
  have hbounds : ∀ i < (List.replicate n (1:Int)).length,
      1 ≤ (List.replicate n (1:Int)).getD i 0 ∧
        (List.replicate n (1:Int)).getD i 0 ≤ max k 1 := by
    intro i hi
    simp only [List.length_replicate] at hi
    rw [List.getD_eq_getElem _ _ (by simpa using hi), List.getElem_replicate]
    exact ⟨le_rfl, le_max_right _ _⟩
  have hne : (List.replicate n (1:Int)) ≠ [] := by
    intro h
    have := congrArg List.length h
    simp at this
    omega
  have hw : wMeasure k (List.replicate n 1) < fuelBound n k := by
    have := wMeasure_replicate_one k n
    rw [fuelBound]
    omega
  have hsome := getCodewordsFuel_isSome k (fuelBound n k) _ [] hne hbounds hw
  obtain ⟨out, hout⟩ := Option.isSome_iff_exists.mp hsome
  intro fuel hfuel
  rw [getCodewordsFuel_mono k _ _ _ _ _ hout hfuel, get_codewords, hout]
  rfl

/-- Claim C9: for every nonempty length `n ≥ 1` and every integer bound
`k_max`, the `while True` loop of `get_codewords` reaches its `return`: with
any fuel of at least `fuelBound n k` the fuel-indexed loop yields `some` of
the stable finite list `get_codewords n k` (so `get_partitions` is total on
nonempty element sequences). -/
theorem get_codewords_terminates (n : Nat) (k : Int) (hn : 1 ≤ n) :
    ∀ fuel, fuelBound n k ≤ fuel →
      getCodewordsFuel k fuel (List.replicate n 1) [] = some (get_codewords n k) :=
  get_codewords_reaches_return n k hn

/-- Claim C9 witness: the terminating run at `n = 3, k = 3`, with exactly the
proved fuel bound. -/
theorem get_codewords_terminates_witness :
    getCodewordsFuel 3 (fuelBound 3 3) (List.replicate 3 1) [] =
      some (get_codewords 3 3) :=
  get_codewords_terminates 3 3 (by decide) (fuelBound 3 3) (le_refl _)

/-! ### Restricted growth strings: membership characterization -/

theorem mem_valsUpTo {m v : Int} : v ∈ valsUpTo m ↔ 1 ≤ v ∧ v ≤ m := by
  constructor
  · intro h
    obtain ⟨j, hj, hv⟩ := List.mem_map.mp h
    rw [List.mem_range] at hj
    omega
  · intro h
    refine List.mem_map.mpr ⟨(v - 1).toNat, ?_, ?_⟩
    · rw [List.mem_range]
      omega
    · show ((v - 1).toNat : Int) + 1 = v
      omega

theorem RGS_nil (k : Int) : RGS k [] := by
  intro i hi
  simp at hi

theorem RGS_append_iff (k : Int) (s : List Int) (v : Int) :
    RGS k (s ++ [v]) ↔ RGS k s ∧ 1 ≤ v ∧ v ≤ min (maxOf s + 1) k := by
  unfold RGS
  constructor
  · intro h
    refine ⟨?_, ?_, ?_⟩
    · intro i hi
      have hcond := h i (by simp; omega)
      rwa [List.getD_append _ _ _ _ hi, List.take_append_of_le_length (by omega)] at hcond
    · have hcond := h s.length (by simp)
      rw [List.getD_append_right _ _ _ _ (le_refl _), Nat.sub_self] at hcond
      exact hcond.1
    · have hcond := h s.length (by simp)
      rw [List.getD_append_right _ _ _ _ (le_refl _), Nat.sub_self, List.take_left] at hcond
      exact hcond.2
  · rintro ⟨hs, hv1, hv2⟩ i hi
    simp only [List.length_append, List.length_cons, List.length_nil] at hi
    rcases Nat.lt_or_ge i s.length with h | h
    · rw [List.getD_append _ _ _ _ h, List.take_append_of_le_length (by omega)]
      exact hs i h
    · have hieq : i = s.length := by omega
      subst hieq
      rw [List.getD_append_right _ _ _ _ (le_refl _), Nat.sub_self, List.take_left]
      exact ⟨hv1, hv2⟩

theorem length_of_mem_allRGS (k : Int) : ∀ (n : Nat) (cw : List Int),
    cw ∈ allRGS k n → cw.length = n := by
  intro n
  induction n with
  | zero =>
    intro cw h
    simp only [allRGS, List.mem_singleton] at h
    simp [h]
  | succ m ih =>
    intro cw h
    simp only [allRGS, List.mem_flatMap, extendRGS, List.mem_map] at h
    obtain ⟨s, hs, v, _, rfl⟩ := h
    simp [ih s hs]

theorem mem_allRGS_iff (k : Int) : ∀ (n : Nat) (cw : List Int),
    cw ∈ allRGS k n ↔ cw.length = n ∧ RGS k cw := by
  intro n
  induction n with
  | zero =>
    intro cw
    simp only [allRGS, List.mem_singleton]
    constructor
    · rintro rfl
      exact ⟨rfl, RGS_nil k⟩
    · rintro ⟨h, _⟩
      exact List.length_eq_zero.mp h
  | succ m ih =>
    intro cw
    simp only [allRGS, List.mem_flatMap, extendRGS, List.mem_map]
    constructor
    · rintro ⟨s, hs, v, hv, rfl⟩
      obtain ⟨hlen, hrgs⟩ := (ih s).mp hs
      rw [mem_valsUpTo] at hv
      refine ⟨by simp [hlen], ?_⟩
      rw [RGS_append_iff]
      exact ⟨hrgs, by omega, by omega⟩
    · rintro ⟨hlen, hrgs⟩
      have hne : cw ≠ [] := by
        intro h0
        rw [h0] at hlen
        simp at hlen
      refine ⟨cw.dropLast, ?_, cw.getLast hne, ?_, List.dropLast_append_getLast hne⟩
      · have hdec := List.dropLast_append_getLast hne
        rw [ih]
        have hrgs2 : RGS k (cw.dropLast ++ [cw.getLast hne]) := by rwa [hdec]
        rw [RGS_append_iff] at hrgs2
        have hlen2 : cw.dropLast.length = m := by
          simp [List.length_dropLast, hlen]
        exact ⟨hlen2, hrgs2.1⟩
      · have hdec := List.dropLast_append_getLast hne
        have hrgs2 : RGS k (cw.dropLast ++ [cw.getLast hne]) := by rwa [hdec]
        rw [RGS_append_iff] at hrgs2
        rw [mem_valsUpTo]
        exact ⟨hrgs2.2.1, hrgs2.2.2⟩

/-! ### Lexicographic order on codewords -/

theorem lexLt_irrefl (a : List Int) : ¬ lexLt a a := by
  rintro ⟨q, _, _, hlt⟩
  omega

theorem lexLt_trans {a b c : List Int} (hab : lexLt a b) (hbc : lexLt b c) : lexLt a c := by
  obtain ⟨q1, hq1, hag1, hlt1⟩ := hab
  obtain ⟨q2, hq2, hag2, hlt2⟩ := hbc
  rcases Nat.lt_trichotomy q1 q2 with h | h | h
  · exact ⟨q1, by omega, fun i hi => (hag1 i hi).trans (hag2 i (by omega)), by
      rw [← hag2 q1 h]; exact hlt1⟩
  · subst h
    exact ⟨q1, hq2, fun i hi => (hag1 i hi).trans (hag2 i hi), by omega⟩
  · exact ⟨q2, hq2, fun i hi => (hag1 i (by omega)).trans (hag2 i hi), by
      rw [← hag1 q2 h] at hlt2; exact hlt2⟩

theorem lexLt_of_lexLt_of_lexLe {a b c : List Int} (hab : lexLt a b) (hbc : lexLe b c) :
    lexLt a c := by
  rcases hbc with hbc | rfl
  · exact lexLt_trans hab hbc
  · exact hab

theorem lexLe_trans {a b c : List Int} (hab : lexLe a b) (hbc : lexLe b c) : lexLe a c := by
  rcases hab with hab | rfl
  · exact Or.inl (lexLt_of_lexLt_of_lexLe hab hbc)
  · exact hbc

theorem lexLt_ne {a b : List Int} (h : lexLt a b) : a ≠ b := by
  rintro rfl
  exact lexLt_irrefl a h

theorem lexLt_trichotomy (a b : List Int) (hlen : a.length = b.length) :
    lexLt a b ∨ a = b ∨ lexLt b a := by
  by_cases hab : a = b
  · exact Or.inr (Or.inl hab)
  · have hdiff : ∃ i, a.getD i 0 ≠ b.getD i 0 := by
      by_contra hno
      push_neg at hno
      refine hab (List.ext_getElem hlen fun i h1 h2 => ?_)
      have := hno i
      rwa [List.getD_eq_getElem _ _ h1, List.getD_eq_getElem _ _ h2] at this
    set q := Nat.find hdiff with hqdef
    have hq := Nat.find_spec hdiff
    have hmin : ∀ i < q, a.getD i 0 = b.getD i 0 := fun i hi =>
      not_not.mp (Nat.find_min hdiff hi)
    have hqlen : q < b.length := by
      by_contra hge
      push_neg at hge
      rw [List.getD_eq_default _ _ (by omega : a.length ≤ q),
        List.getD_eq_default _ _ hge] at hq
      exact hq rfl
    rcases lt_or_gt_of_ne hq with h | h
    · exact Or.inl ⟨q, hqlen, hmin, h⟩
    · exact Or.inr (Or.inr ⟨q, by omega, fun i hi => (hmin i hi).symm, h⟩)

theorem getD_replicate_one {n i : Nat} (h : i < n) :
    (List.replicate n (1:Int)).getD i 0 = 1 := by
  rw [List.getD_eq_getElem _ _ (by simpa using h), List.getElem_replicate]

theorem RGS_values {k : Int} {cw : List Int} (h : RGS k cw) :
    ∀ x ∈ cw, 1 ≤ x ∧ x ≤ k := by
  intro x hx
  obtain ⟨i, hi, rfl⟩ := List.mem_iff_getElem.mp hx
  have := h i hi
  rw [List.getD_eq_getElem _ _ hi] at this
  exact ⟨this.1, le_trans this.2 (min_le_right _ _)⟩

theorem RGS_pos0 {k : Int} {cw : List Int} (h : RGS k cw) (hk : 1 ≤ k)
    (hlen : 0 < cw.length) : cw.getD 0 0 = 1 := by
  have := h 0 hlen
  simp only [List.take_zero, maxOf, List.foldl_nil] at this
  omega

theorem lexLe_ones {k : Int} {d : List Int} (hrgs : RGS k d) :
    lexLe (List.replicate d.length 1) d := by
  rcases lexLt_trichotomy (List.replicate d.length 1) d (by simp) with h | h | h
  · exact Or.inl h
  · exact Or.inr h
  · obtain ⟨q, hq, _, hlt⟩ := h
    simp only [List.length_replicate] at hq
    rw [getD_replicate_one hq] at hlt
    have := (hrgs q hq).1
    omega

theorem take_eq_of_agree {a b : List Int} {q : Nat} (hlen : a.length = b.length)
    (h : ∀ i < q, a.getD i 0 = b.getD i 0) : a.take q = b.take q := by
  apply List.ext_getElem
  · simp [hlen]
  · intro i h1 h2
    simp only [List.length_take] at h1
    rw [List.getElem_take, List.getElem_take]
    have hi := h i (by omega)
    rw [List.getD_eq_getElem a _ (by omega), List.getD_eq_getElem b _ (by omega)] at hi
    exact hi

theorem pymax_take_eq_maxOf {k : Int} {cw : List Int} (h : RGS k cw) (q : Nat) :
    pymax (cw.take q) = maxOf (cw.take q) := by
  apply pymax_eq_maxOf
  cases cw with
  | nil => simp
  | cons x xs =>
    cases q with
    | zero => simp
    | succ r =>
      simp only [List.take_succ_cons, List.headD_cons]
      have h0 := (h 0 (by simp)).1
      simp only [List.getD_cons_zero] at h0
      omega

theorem maxOf_replicate_one {m : Nat} (hm : 1 ≤ m) :
    maxOf (List.replicate m (1:Int)) = 1 := by
  have h := pymax_replicate_one m hm
  rwa [pymax_eq_maxOf] at h
  obtain ⟨r, rfl⟩ := Nat.exists_eq_add_of_le hm
  rw [show 1 + r = r + 1 from by omega]
  simp [List.replicate_succ]

theorem RGS_replicate_one {k : Int} (hk : 1 ≤ k) (n : Nat) :
    RGS k (List.replicate n 1) := by
  intro i hi
  simp only [List.length_replicate] at hi
  rw [getD_replicate_one hi]
  refine ⟨le_rfl, ?_⟩
  rw [List.take_replicate]
  rcases Nat.eq_zero_or_pos (min i n) with h | h
  · rw [h]
    simp only [List.replicate_zero, maxOf, List.foldl_nil]
    omega
  · rw [maxOf_replicate_one h]
    omega

theorem no_increase_at_max {k : Int} {cw d : List Int} {q : Nat} (hk : 1 ≤ k)
    (hcw : RGS k cw) (hd : RGS k d) (hlen : d.length = cw.length) (hq : q < cw.length)
    (hag : ∀ i < q, cw.getD i 0 = d.getD i 0) (hlt : cw.getD q 0 < d.getD q 0)
    (hmax : IsMaxPos k cw q) : False := by
  have htake : cw.take q = d.take q := take_eq_of_agree hlen.symm hag
  have hpm : pymax (cw.take q) = maxOf (cw.take q) := pymax_take_eq_maxOf hcw q
  have hdq := hd q (by omega)
  rw [← htake] at hdq
  have hcwq := hcw q hq
  have hmaxOfle : maxOf (cw.take q) ≤ k := by
    apply maxOf_le (by omega)
    intro x hx
    exact (RGS_values hcw x (List.mem_of_mem_take hx)).2
  unfold IsMaxPos at hmax
  rw [hpm] at hmax
  rcases hmax with h | h | h
  · omega
  · have h2 := hcwq.2
    have h3 := hdq.2
    omega
  · have h3 := hdq.2
    omega

theorem step_brk_facts {k : Int} {cw cw' : List Int} (hk : 1 ≤ k) (hrgs : RGS k cw)
    (hne : cw ≠ []) (hbrk : scanGo k cw (cw.length - 1) = ScanOut.brk cw') :
    RGS k cw' ∧ cw'.length = cw.length ∧ lexLt cw cw' ∧
      ∀ d, RGS k d → d.length = cw.length → lexLt cw d → lexLe cw' d := by
  have hn1 : 0 < cw.length := List.length_pos.mpr hne
  obtain ⟨p, hp1, hps, hlen, hlow, hatp, hmid, hhigh, hnmax, hmaxAll⟩ :=
    scanGo_brk_spec k (cw.length - 1) cw cw' hne (by omega) hbrk
  have hnm := hnmax
  unfold IsMaxPos at hnm
  push_neg at hnm
  obtain ⟨hpm_le_k, hcs_le, hcs_lt⟩ := hnm
  have hpm : pymax (cw.take p) = maxOf (cw.take p) := pymax_take_eq_maxOf hrgs p
  have htake : ∀ i, i ≤ p → cw'.take i = cw.take i := fun i hi =>
    take_eq_of_agree (by omega : cw'.length = cw.length) fun j hj => hlow j (by omega)
  have hrgs' : RGS k cw' := by
    intro i hi
    rw [hlen] at hi
    rcases Nat.lt_trichotomy i p with h | h | h
    · rw [hlow i h, htake i (by omega)]
      exact hrgs i hi
    · subst h
      rw [hatp, htake i le_rfl]
      refine ⟨by have := (hrgs i hi).1; omega, ?_⟩
      rw [hpm] at hcs_le
      omega
    · rw [hmid i h (by omega)]
      refine ⟨le_rfl, ?_⟩
      have h1 : 0 ≤ maxOf (cw'.take i) := maxOf_nonneg _
      omega
  have hltccw' : lexLt cw cw' :=
    ⟨p, by omega, fun i hi => (hlow i hi).symm, by omega⟩
  refine ⟨hrgs', hlen, hltccw', ?_⟩
  intro d hd hdlen hcwd
  obtain ⟨q, hq, hag, hqlt⟩ := hcwd
  rw [hdlen] at hq
  have hq1 : 1 ≤ q := by
    by_contra h0
    push_neg at h0
    have h0' : q = 0 := by omega
    subst h0'
    rw [RGS_pos0 hrgs hk (by omega), RGS_pos0 hd hk (by omega)] at hqlt
    omega
  have hqp : q ≤ p := by
    by_contra hgt
    push_neg at hgt
    exact no_increase_at_max hk hrgs hd hdlen (by omega) hag hqlt
      (hmaxAll q hgt (by omega))
  rcases Nat.lt_or_ge q p with hqltp | hqge
  · left
    refine ⟨q, by omega, fun i hi => ?_, ?_⟩
    · rw [hlow i (by omega)]
      exact hag i hi
    · rw [hlow q hqltp]
      exact hqlt
  · have hqeq : q = p := by omega
    subst hqeq
    rcases lexLt_trichotomy cw' d (by omega) with h | h | h
    · exact Or.inl h
    · exact Or.inr h
    · exfalso
      obtain ⟨r, hr, hagR, hltR⟩ := h
      rw [hlen] at hr
      rcases Nat.lt_trichotomy r q with h1 | h1 | h1
      · have hcd := hag r h1
        rw [hlow r (by omega)] at hltR
        omega
      · subst h1
        rw [hatp] at hltR
        omega
      · rw [hmid r h1 (by omega)] at hltR
        have := (hd r (by omega)).1
        omega

theorem step_ret_facts {k : Int} {cw : List Int} (hk : 1 ≤ k) (hrgs : RGS k cw)
    (hne : cw ≠ []) (hret : scanGo k cw (cw.length - 1) = ScanOut.ret) :
    ∀ d, RGS k d → d.length = cw.length → ¬ lexLt cw d := by
  intro d hd hdlen hlt
  have hn1 : 0 < cw.length := List.length_pos.mpr hne
  obtain ⟨q, hq, hag, hqlt⟩ := hlt
  rw [hdlen] at hq
  have hq1 : 1 ≤ q := by
    by_contra h0
    push_neg at h0
    have h0' : q = 0 := by omega
    subst h0'
    rw [RGS_pos0 hrgs hk (by omega), RGS_pos0 hd hk (by omega)] at hqlt
    omega
  exact no_increase_at_max hk hrgs hd hdlen hq hag hqlt
    (scanGo_ret_spec k (cw.length - 1) cw hne hret q hq1 (by omega))

theorem run_spec (k : Int) (hk : 1 ≤ k) : ∀ (fuel : Nat) (cw : List Int)
    (acc out : List (List Int)), cw ≠ [] → RGS k cw →
    getCodewordsFuel k fuel cw acc = some out →
    ∃ em, out = acc ++ em ∧
      (∀ c ∈ em, RGS k c ∧ c.length = cw.length ∧ lexLe cw c) ∧
      (∀ d, RGS k d → d.length = cw.length → lexLe cw d → d ∈ em) ∧
      List.Pairwise lexLt em := by
  intro fuel
  induction fuel with
  | zero => intro cw acc out _ _ h; simp [getCodewordsFuel] at h
  | succ m ih =>
    intro cw acc out hne hrgs h
    have hlenpos : 0 < cw.length := List.length_pos.mpr hne
    have hstep : stepOut k cw = scanGo k cw (cw.length - 1) := by
      rw [stepOut, if_neg (by omega)]
    rw [getCodewordsFuel, hstep] at h
    match hm : scanGo k cw (cw.length - 1) with
    | ScanOut.ret =>
      rw [hm, Option.some_inj] at h
      refine ⟨[cw], h.symm, ?_, ?_, by simp⟩
      · intro c hc
        rw [List.mem_singleton] at hc
        subst hc
        exact ⟨hrgs, rfl, Or.inr rfl⟩
      · intro d hd hdlen hle
        rcases hle with hlt | rfl
        · exact absurd hlt (step_ret_facts hk hrgs hne hm d hd hdlen)
        · simp
    | ScanOut.brk cw2 =>
      rw [hm] at h
      obtain ⟨hrgs2, hlen2, hlt2, hmin2⟩ := step_brk_facts hk hrgs hne hm
      have hne2 : cw2 ≠ [] := by
        intro h0
        rw [h0] at hlen2
        simp at hlen2
        omega
      obtain ⟨em2, hout, hsound, hcomplete, hpw⟩ := ih cw2 (acc ++ [cw]) out hne2 hrgs2 h
      refine ⟨cw :: em2, by simpa using hout, ?_, ?_, ?_⟩
      · intro c hc
        rcases List.mem_cons.mp hc with rfl | hc
        · exact ⟨hrgs, rfl, Or.inr rfl⟩
        · obtain ⟨hc1, hc2, hc3⟩ := hsound c hc
          exact ⟨hc1, by omega, Or.inl (lexLt_of_lexLt_of_lexLe hlt2 hc3)⟩
      · intro d hd hdlen hle
        rcases hle with hlt | rfl
        · exact List.mem_cons_of_mem _
            (hcomplete d hd (by omega) (hmin2 d hd hdlen hlt))
        · exact List.mem_cons_self _ _
      · rw [List.pairwise_cons]
        refine ⟨?_, hpw⟩
        intro c hc
        exact lexLt_of_lexLt_of_lexLe hlt2 (hsound c hc).2.2
    | ScanOut.fall =>
      exact absurd hm (scanGo_ne_fall k _ cw)

theorem get_codewords_spec (n : Nat) (k : Int) (hn : 1 ≤ n) (hk : 1 ≤ k) :
    (∀ c ∈ get_codewords n k, RGS k c ∧ c.length = n) ∧
      (∀ d, RGS k d → d.length = n → d ∈ get_codewords n k) ∧
      (get_codewords n k).Nodup := by
  have hrun := get_codewords_reaches_return n k hn (fuelBound n k) le_rfl
  have hne : (List.replicate n (1:Int)) ≠ [] := by
    intro h
    have := congrArg List.length h
    simp at this
    omega
  obtain ⟨em, hout, hsound, hcomplete, hpw⟩ :=
    run_spec k hk (fuelBound n k) (List.replicate n 1) [] (get_codewords n k)
      hne (RGS_replicate_one hk n) hrun
  rw [List.nil_append] at hout
  subst hout
  refine ⟨?_, ?_, ?_⟩
  · intro c hc
    obtain ⟨h1, h2, _⟩ := hsound c hc
    exact ⟨h1, by simpa using h2⟩
  · intro d hd hdlen
    refine hcomplete d hd (by simpa using hdlen) ?_
    have := lexLe_ones hd
    rwa [hdlen] at this
  · exact hpw.imp fun h => lexLt_ne h

theorem extendRGS_nodup (k : Int) (s : List Int) : (extendRGS k s).Nodup := by
  apply List.Nodup.map
  · intro v1 v2 h
    simpa using List.append_cancel_left h
  · apply List.Nodup.map
    · intro a b h
      simp only at h
      omega
    · exact List.nodup_range _

theorem allRGS_nodup (k : Int) : ∀ (n : Nat), (allRGS k n).Nodup := by
  intro n
  induction n with
  | zero => simp [allRGS]
  | succ m ih =>
    rw [allRGS, List.nodup_flatMap]
    refine ⟨fun s _ => extendRGS_nodup k s, ?_⟩
    apply List.Pairwise.imp_of_mem ?_ ih
    intro s1 s2 hs1 hs2 hne x hx1 hx2
    simp only [extendRGS, List.mem_map] at hx1 hx2
    obtain ⟨v1, _, rfl⟩ := hx1
    obtain ⟨v2, _, heq⟩ := hx2
    have hlen1 := length_of_mem_allRGS k m s1 hs1
    have hlen2 := length_of_mem_allRGS k m s2 hs2
    exact hne ((List.append_inj heq.symm (by omega)).1)

theorem get_codewords_perm_allRGS (n : Nat) (k : Int) (hn : 1 ≤ n) (hk : 1 ≤ k) :
    (get_codewords n k).Perm (allRGS k n) := by
  obtain ⟨hsound, hcomplete, hnd⟩ := get_codewords_spec n k hn hk
  rw [List.perm_ext_iff_of_nodup hnd (allRGS_nodup k n)]
  intro c
  rw [mem_allRGS_iff]
  constructor
  · intro hc
    obtain ⟨h1, h2⟩ := hsound c hc
    exact ⟨h2, h1⟩
  · rintro ⟨h1, h2⟩
    exact hcomplete c h2 h1

/-! ### Counting the restricted growth strings -/

theorem countP_flatMap {α β : Type} (p : β → Bool) (f : α → List β) : ∀ (l : List α),
    (l.flatMap f).countP p = (l.map fun s => (f s).countP p).sum := by
  intro l
  induction l with
  | nil => simp
  | cons x xs ih => simp [List.flatMap_cons, List.countP_append, ih]

theorem sum_map_add {α : Type} (f g : α → Nat) : ∀ (l : List α),
    (l.map fun s => f s + g s).sum = (l.map f).sum + (l.map g).sum := by
  intro l
  induction l with
  | nil => simp
  | cons x xs ih =>
    simp only [List.map_cons, List.sum_cons, ih]
    omega

theorem sum_ite_count {α : Type} (p : α → Bool) (c : Nat) : ∀ (l : List α),
    (l.map fun s => if p s = true then c else 0).sum = c * l.countP p := by
  intro l
  induction l with
  | nil => simp
  | cons x xs ih =>
    simp only [List.map_cons, List.sum_cons, ih, List.countP_cons]
    by_cases h : p x = true
    · simp [h]
      ring
    · simp [h]

theorem maxOf_le_allRGS (k : Int) : ∀ (n : Nat) (s : List Int),
    s ∈ allRGS k n → maxOf s ≤ (n : Int) := by
  intro n
  induction n with
  | zero =>
    intro s hs
    simp only [allRGS, List.mem_singleton] at hs
    subst hs
    simp [maxOf]
  | succ m ih =>
    intro s hs
    simp only [allRGS, List.mem_flatMap, extendRGS, List.mem_map] at hs
    obtain ⟨t, ht, v, hv, rfl⟩ := hs
    rw [mem_valsUpTo] at hv
    rw [maxOf_append_singleton]
    have h1 := ih t ht
    have h2 : v ≤ maxOf t + 1 := le_trans hv.2 (by omega)
    push_cast
    omega

theorem countP_extendRGS (k : Int) (s : List Int) (hcap : maxOf s + 1 ≤ k) (m : Nat) :
    (extendRGS k s).countP (fun t => decide (maxOf t = (m:Int)))
      = (if maxOf s = (m:Int) then (maxOf s).toNat else 0)
        + (if maxOf s + 1 = (m:Int) then 1 else 0) := by
  have hM : 0 ≤ maxOf s := maxOf_nonneg s
  rw [extendRGS, min_eq_left hcap, List.countP_map]
  have hsplit : valsUpTo (maxOf s + 1) = valsUpTo (maxOf s) ++ [maxOf s + 1] := by
    rw [valsUpTo, valsUpTo, show (maxOf s + 1).toNat = (maxOf s).toNat + 1 by omega,
      List.range_succ, List.map_append]
    simp only [List.map_cons, List.map_nil]
    congr 2
    omega
  rw [hsplit, List.countP_append]
  congr 1
  · have hpt : ∀ v ∈ valsUpTo (maxOf s),
        (((fun t => decide (maxOf t = (m:Int))) ∘ fun v => s ++ [v]) v = true ↔
          (fun _ => decide (maxOf s = (m:Int))) v = true) := by
      intro v hv
      rw [mem_valsUpTo] at hv
      simp only [Function.comp_apply, maxOf_append_singleton]
      rw [max_eq_left hv.2]
    rw [List.countP_congr hpt]
    by_cases hc : maxOf s = (m:Int)
    · rw [if_pos hc]
      simp only [hc]
      simp [valsUpTo, List.countP_true]
    · rw [if_neg hc]
      simp [List.countP_false, hc]
  · simp only [List.countP_cons, List.countP_nil, Function.comp_apply,
      maxOf_append_singleton]
    rw [max_eq_right (by omega)]
    by_cases hc : maxOf s + 1 = (m:Int)
    · rw [if_pos hc]
      simp [hc]
    · rw [if_neg hc]
      simp [hc]

theorem countP_allRGS (k : Int) : ∀ (n : Nat), (n : Int) ≤ k → ∀ (m : Nat),
    (allRGS k n).countP (fun s => decide (maxOf s = (m:Int))) = stirl n m := by
  intro n
  induction n with
  | zero =>
    intro _ m
    cases m with
    | zero => simp [allRGS, List.countP_cons, maxOf, stirl]
    | succ r =>
      have hne : ¬ (maxOf ([] : List Int) = (r : Int) + 1) := by
        simp only [maxOf, List.foldl_nil]
        omega
      simp [allRGS, List.countP_cons, hne, stirl]
  | succ n ih =>
    intro hnk m
    have hnk' : (n : Int) ≤ k := by push_cast at hnk ⊢; omega
    rw [allRGS, countP_flatMap]
    have hterm : ∀ s ∈ allRGS k n,
        ((extendRGS k s).countP fun t => decide (maxOf t = (m:Int)))
          = (if maxOf s = (m:Int) then (maxOf s).toNat else 0)
            + (if maxOf s + 1 = (m:Int) then 1 else 0) := by
      intro s hs
      apply countP_extendRGS
      have h1 := maxOf_le_allRGS k n s hs
      push_cast at hnk
      omega
    rw [List.map_congr_left hterm, sum_map_add]
    cases m with
    | zero =>
      have hz1 : ∀ s ∈ allRGS k n,
          (if maxOf s = ((0:Nat):Int) then (maxOf s).toNat else 0) = 0 := by
        intro s _
        by_cases h : maxOf s = ((0:Nat):Int)
        · rw [if_pos h]
          omega
        · rw [if_neg h]
      have hz2 : ∀ s ∈ allRGS k n,
          (if maxOf s + 1 = ((0:Nat):Int) then 1 else 0) = 0 := by
        intro s _
        have := maxOf_nonneg s
        rw [if_neg (by push_cast; omega)]
      rw [List.map_congr_left hz1, List.map_congr_left hz2]
      simp [stirl]
    | succ r =>
      have he1 : ∀ s ∈ allRGS k n,
          (if maxOf s = ((r+1:Nat):Int) then (maxOf s).toNat else 0)
            = (if (fun s => decide (maxOf s = ((r+1:Nat):Int))) s = true then (r+1) else 0) := by
        intro s _
        by_cases h : maxOf s = ((r+1:Nat):Int)
        · rw [if_pos h, if_pos (by simpa using h)]
          omega
        · rw [if_neg h, if_neg (by simpa using h)]
      have he2 : ∀ s ∈ allRGS k n,
          (if maxOf s + 1 = ((r+1:Nat):Int) then 1 else 0)
            = (if (fun s => decide (maxOf s = ((r:Nat):Int))) s = true then 1 else 0) := by
        intro s _
        by_cases h : maxOf s = ((r:Nat):Int)
        · rw [if_pos (by push_cast; omega), if_pos (by simpa using h)]
        · rw [if_neg (by push_cast; omega), if_neg (by simpa using h)]
      rw [List.map_congr_left he1, List.map_congr_left he2, sum_ite_count, sum_ite_count,
        ih hnk' (r+1), ih hnk' r]
      simp [stirl]

theorem sum_indicator_range (a : Int) (ha : 0 ≤ a) : ∀ (N : Nat),
    ((List.range N).map fun (m : Nat) => if a = (m:Int) then 1 else 0).sum
      = if a.toNat < N then 1 else 0 := by
  intro N
  induction N with
  | zero => simp
  | succ M ih =>
    rw [List.range_succ, List.map_append, List.sum_append, ih]
    simp only [List.map_cons, List.map_nil, List.sum_cons, List.sum_nil]
    split_ifs <;> omega

theorem length_eq_sum_countP (N : Nat) : ∀ (l : List (List Int)),
    (∀ s ∈ l, (maxOf s).toNat < N) →
    ((List.range N).map fun (m : Nat) => l.countP fun s => decide (maxOf s = (m:Int))).sum
      = l.length := by
  intro l
  induction l with
  | nil => simp
  | cons s l' ih =>
    intro hb
    have hsplit : ∀ m ∈ List.range N,
        ((s :: l').countP fun t => decide (maxOf t = (m:Int)))
          = (l'.countP fun t => decide (maxOf t = (m:Int)))
            + (if maxOf s = (m:Int) then 1 else 0) := by
      intro m _
      rw [List.countP_cons]
      congr 1
      by_cases h : maxOf s = (m:Int)
      · rw [if_pos (by simpa using h), if_pos h]
      · rw [if_neg (by simpa using h), if_neg h]
    rw [List.map_congr_left hsplit, sum_map_add, ih (fun t ht => hb t (by simp [ht])),
      sum_indicator_range (maxOf s) (maxOf_nonneg s) N,
      if_pos (hb s (by simp))]
    simp

/-- Claim C6: for every nonempty `n`-element sequence, `get_partitions` with
`k_max = n` yields exactly `bell n` partitions, where `bell` is the sum of the
Stirling numbers of the second kind over block counts `0..n` (the `n`-th Bell
number); the underlying codeword enumeration lists each restricted growth
string exactly once. -/
theorem get_partitions_bell_count (l : List Entry) (hne : l ≠ []) :
    (get_partitions l (l.length : Int)).length = bell l.length := by
  rw [get_partitions, List.length_map]
  have hn : 1 ≤ l.length := List.length_pos.mpr hne
  have hk : (1:Int) ≤ (l.length : Int) := by exact_mod_cast hn
  rw [(get_codewords_perm_allRGS l.length (l.length : Int) hn hk).length_eq, bell]
  have hcongr : ∀ m ∈ List.range (l.length + 1), stirl l.length m
      = (allRGS (l.length : Int) l.length).countP fun s => decide (maxOf s = (m:Int)) :=
    fun m _ => (countP_allRGS (l.length : Int) l.length le_rfl m).symm
  rw [List.map_congr_left hcongr, length_eq_sum_countP]
  intro s hs
  have h1 := maxOf_le_allRGS (l.length : Int) l.length s hs
  have h2 := maxOf_nonneg s
  omega

/-- Claim C6 witness: a concrete 3-element sequence yields exactly
`bell 3 = 5` partitions. -/
theorem get_partitions_bell_count_witness :
    ([("x",1),("y",2),("z",3)] : List Entry) ≠ [] ∧
      (get_partitions [("x",1),("y",2),("z",3)]
        (([("x",1),("y",2),("z",3)] : List Entry).length : Int)).length
        = bell ([("x",1),("y",2),("z",3)] : List Entry).length ∧
      bell 3 = 5 :=
  ⟨by decide, get_partitions_bell_count [("x",1),("y",2),("z",3)] (by decide), by decide⟩

/-! ### Soundness of the built partitions -/

theorem getD_set_self2 {α : Type} {l : List α} {i : Nat} (h : i < l.length) (v d : α) :
    (l.set i v).getD i d = v := by
  rw [List.getD_eq_getElem _ _ (by simpa using h), List.getElem_set, if_pos rfl]

theorem getD_set_ne2 {α : Type} {l : List α} {i j : Nat} (h : i ≠ j) (v d : α) :
    (l.set i v).getD j d = l.getD j d := by
  rw [List.getD_eq_getElem?_getD, List.getD_eq_getElem?_getD, List.getElem?_set_ne h]

theorem buildPartition_spec : ∀ (xs : List Entry) (cs : List Int)
    (part : List (List Entry)), xs.length = cs.length →
    (∀ c ∈ cs, 1 ≤ c ∧ c ≤ (part.length : Int)) →
    (buildPartition xs cs part).length = part.length ∧
      ∀ j < part.length, (buildPartition xs cs part).getD j []
        = part.getD j [] ++ selectCode xs cs ((j:Int)+1) := by
  intro xs
  induction xs with
  | nil =>
    intro cs part _ _
    refine ⟨rfl, fun j _ => ?_⟩
    cases cs <;> simp [buildPartition, selectCode]
  | cons x xs' ih =>
    intro cs part hlen hb
    cases cs with
    | nil => simp at hlen
    | cons c cs' =>
      have hc := hb c (by simp)
      have hj0 : ((c - 1).toNat) < part.length := by omega
      have hlen' : (placeEntry part (c - 1).toNat x).length = part.length := by
        simp [placeEntry]
      have hb' : ∀ c' ∈ cs', 1 ≤ c' ∧ c' ≤ ((placeEntry part (c - 1).toNat x).length : Int) := by
        intro c' hc'
        rw [hlen']
        exact hb c' (by simp [hc'])
      obtain ⟨ihlen, ihget⟩ := ih cs' (placeEntry part (c - 1).toNat x)
        (by simpa using hlen) hb'
      rw [buildPartition]
      refine ⟨by rw [ihlen, hlen'], ?_⟩
      intro j hj
      rw [ihget j (by omega)]
      have hplace : (placeEntry part (c - 1).toNat x).getD j []
          = part.getD j [] ++ (if c = (j:Int)+1 then [x] else []) := by
        by_cases hcj : (c - 1).toNat = j
        · subst hcj
          rw [placeEntry, getD_set_self2 hj0 _ _, if_pos (by omega)]
        · rw [placeEntry, getD_set_ne2 hcj _ _, if_neg (by omega), List.append_nil]
      rw [hplace, List.append_assoc]
      congr 1
      rw [selectCode]
      by_cases hcj : c = (j:Int)+1
      · rw [if_pos hcj, if_pos hcj, List.singleton_append]
      · rw [if_neg hcj, if_neg hcj, List.nil_append]

theorem lawfulBEq_decEntry : @LawfulBEq Entry instBEqOfDecidableEq :=
  @LawfulBEq.mk Entry instBEqOfDecidableEq
    (fun h => of_decide_eq_true h)
    (decide_eq_true rfl)

theorem allRGS_contiguous (k : Int) : ∀ (n : Nat) (cw : List Int), cw ∈ allRGS k n →
    ∀ v : Int, 1 ≤ v → v ≤ maxOf cw → v ∈ cw := by
  intro n
  induction n with
  | zero =>
    intro cw h v hv1 hv2
    simp only [allRGS, List.mem_singleton] at h
    subst h
    simp only [maxOf, List.foldl_nil] at hv2
    omega
  | succ m ih =>
    intro cw h v hv1 hv2
    simp only [allRGS, List.mem_flatMap, extendRGS, List.mem_map] at h
    obtain ⟨s, hs, u, hu, rfl⟩ := h
    rw [mem_valsUpTo] at hu
    rw [maxOf_append_singleton] at hv2
    rcases le_or_lt v (maxOf s) with h1 | h1
    · exact List.mem_append.mpr (Or.inl (ih s hs v hv1 h1))
    · have hvu : v = u := by omega
      subst hvu
      simp

theorem selectCode_ne_nil : ∀ (l : List Entry) (cw : List Int) (v : Int),
    l.length = cw.length → v ∈ cw → selectCode l cw v ≠ [] := by
  intro l
  induction l with
  | nil =>
    intro cw v hlen hv
    cases cw with
    | nil => simp at hv
    | cons _ _ => simp at hlen
  | cons x l' ih =>
    intro cw v hlen hv
    cases cw with
    | nil => simp at hv
    | cons c cw' =>
      rw [selectCode]
      by_cases hcv : c = v
      · rw [if_pos hcv]
        simp
      · rw [if_neg hcv]
        apply ih cw' v (by simpa using hlen)
        rcases List.mem_cons.mp hv with h | h
        · exact absurd h.symm hcv
        · exact h

theorem sum_count_selectCode [inst : BEq Entry] [LawfulBEq Entry] (a : Entry) (num : Nat) :
    ∀ (l : List Entry) (cw : List Int),
    l.length = cw.length → (∀ c ∈ cw, 1 ≤ c ∧ c ≤ (num:Int)) →
    ((List.range num).map fun (j : Nat) => (selectCode l cw ((j:Int)+1)).count a).sum
      = l.count a := by
  intro l
  induction l with
  | nil =>
    intro cw hlen _
    cases cw with
    | nil => simp [selectCode]
    | cons _ _ => simp at hlen
  | cons x l' ih =>
    intro cw hlen hb
    cases cw with
    | nil => simp at hlen
    | cons c cw' =>
      have hc := hb c (by simp)
      have hpt : ∀ j ∈ List.range num,
          ((selectCode (x :: l') (c :: cw') ((j:Int)+1)).count a)
            = (selectCode l' cw' ((j:Int)+1)).count a
              + (if c = (j:Int)+1 ∧ x = a then 1 else 0) := by
        intro j _
        rw [selectCode]
        by_cases hcj : c = (j:Int)+1
        · rw [if_pos hcj, List.count_cons]
          congr 1
          by_cases hxa : x = a
          · rw [if_pos (by rw [beq_iff_eq]; exact hxa), if_pos ⟨hcj, hxa⟩]
          · rw [if_neg (by rw [beq_iff_eq]; exact hxa), if_neg (by tauto)]
        · rw [if_neg hcj, if_neg (by tauto), Nat.add_zero]
      rw [List.map_congr_left hpt, sum_map_add,
        ih cw' (by simpa using hlen) (fun c' h => hb c' (by simp [h]))]
      by_cases hxa : x = a
      · have hcongr2 : ∀ j ∈ List.range num,
            (if c = (j:Int)+1 ∧ x = a then 1 else 0)
              = (if (c - 1 : Int) = (j:Int) then 1 else 0) := by
          intro j _
          by_cases h : c = (j:Int)+1
          · rw [if_pos ⟨h, hxa⟩, if_pos (by omega)]
          · rw [if_neg (by tauto), if_neg (by omega)]
        rw [List.map_congr_left hcongr2, sum_indicator_range (c-1) (by omega) num,
          if_pos (by omega), List.count_cons, if_pos (by rw [beq_iff_eq]; exact hxa)]
      · have hcongr2 : ∀ j ∈ List.range num,
            (if c = (j:Int)+1 ∧ x = a then 1 else 0) = 0 := by
          intro j _
          rw [if_neg (by tauto)]
        rw [List.map_congr_left hcongr2, List.count_cons,
          if_neg (by rw [beq_iff_eq]; exact hxa)]
        simp

/-- Claim C7: for every nonempty sequence and every `k_max` between 1 and the
sequence length, each partition produced by `get_partitions` consists of
nonempty subsets, and the concatenation of its subsets is a permutation of the
original sequence (the union as a multiset of positions recovers exactly the
original elements). -/
theorem get_partitions_sound (l : List Entry) (k : Int) (hne : l ≠ []) (hk1 : 1 ≤ k)
    (hkn : k ≤ (l.length : Int)) :
    ∀ p ∈ get_partitions l k, (∀ s ∈ p, s ≠ []) ∧ p.flatten.Perm l := by
  intro p hp
  rw [get_partitions, List.mem_map] at hp
  obtain ⟨cw, hcw, rfl⟩ := hp
  have hn : 1 ≤ l.length := List.length_pos.mpr hne
  obtain ⟨hsound, -, -⟩ := get_codewords_spec l.length k hn hk1
  obtain ⟨hrgs, hlen⟩ := hsound cw hcw
  have hpm : pymax cw = maxOf cw := by
    have h := pymax_take_eq_maxOf hrgs cw.length
    rwa [List.take_length] at h
  have hmax0 : 0 ≤ maxOf cw := maxOf_nonneg cw
  have hvals : ∀ c ∈ cw, 1 ≤ c ∧ c ≤ ((pymax cw).toNat : Int) := by
    intro c hc
    have h1 := RGS_values hrgs c hc
    have h2 := le_maxOf_of_mem hc
    refine ⟨h1.1, ?_⟩
    rw [hpm]
    omega
  obtain ⟨hplen, hpget⟩ := buildPartition_spec l cw
    (List.replicate (pymax cw).toNat []) hlen.symm (by simpa using hvals)
  have hbuild_getD : ∀ j < (pymax cw).toNat,
      (buildPartition l cw (List.replicate (pymax cw).toNat [])).getD j []
        = selectCode l cw ((j:Int)+1) := by
    intro j hj
    have h := hpget j (by rw [List.length_replicate]; exact hj)
    have hrep : (List.replicate (pymax cw).toNat ([] : List Entry)).getD j [] = [] := by
      rw [List.getD_eq_getElem _ _ (by rw [List.length_replicate]; exact hj),
        List.getElem_replicate]
    rw [hrep, List.nil_append] at h
    exact h
  have hp_eq : buildPartition l cw (List.replicate (pymax cw).toNat [])
      = (List.range (pymax cw).toNat).map
          (fun (j : Nat) => selectCode l cw ((j:Int)+1)) := by
    apply List.ext_getElem
    · rw [hplen]
      simp
    · intro i h1 h2
      rw [List.getElem_map, List.getElem_range]
      have h3 : i < (pymax cw).toNat := by
        rw [hplen, List.length_replicate] at h1
        exact h1
      have h4 := hbuild_getD i h3
      rwa [List.getD_eq_getElem _ _ h1] at h4
  rw [hp_eq]
  constructor
  · intro s hs
    rw [List.mem_map] at hs
    obtain ⟨j, hj, rfl⟩ := hs
    rw [List.mem_range] at hj
    apply selectCode_ne_nil l cw _ hlen.symm
    apply allRGS_contiguous k l.length cw ((mem_allRGS_iff k l.length cw).mpr ⟨hlen, hrgs⟩)
    · omega
    · rw [← hpm]
      omega
  · rw [List.perm_iff_count]
    intro a
    rw [@List.count_flatten Entry instBEqOfDecidableEq a
      ((List.range (pymax cw).toNat).map fun (j : Nat) => selectCode l cw ((j:Int)+1)),
      List.map_map]
    exact @sum_count_selectCode instBEqOfDecidableEq lawfulBEq_decEntry a
      (pymax cw).toNat l cw hlen.symm hvals

/-- Claim C7 witness: the soundness statement applied to a concrete 3-element
sequence with `k_max = 2` and one of its generated partitions. -/
theorem get_partitions_sound_witness :
    (([("x",1),("y",2),("z",3)] : List Entry) ≠ [] ∧ (1:Int) ≤ 2 ∧
        (2:Int) ≤ (([("x",1),("y",2),("z",3)] : List Entry).length : Int)) ∧
      ([[("x",1),("y",2)],[("z",3)]] ∈ get_partitions [("x",1),("y",2),("z",3)] 2 ∧
        (∀ s ∈ ([[("x",1),("y",2)],[("z",3)]] : List (List Entry)), s ≠ []) ∧
          ([[("x",1),("y",2)],[("z",3)]] : List (List Entry)).flatten.Perm
            [("x",1),("y",2),("z",3)]) :=
  ⟨⟨by decide, by decide, by decide⟩,
    by decide,
    (get_partitions_sound [("x",1),("y",2),("z",3)] 2 (by decide) (by decide) (by decide)
      [[("x",1),("y",2)],[("z",3)]] (by decide)).1,
    (get_partitions_sound [("x",1),("y",2),("z",3)] 2 (by decide) (by decide) (by decide)
      [[("x",1),("y",2)],[("z",3)]] (by decide)).2⟩
